import Mathlib

/-!
Shallow embedding of the fit-file-viewer image core
(`src/image_display_engine.py`, `src/histogram_widget.py`,
`src/main_window.py`, `src/fits_file_manager.py`) and proofs of the
frozen claims about it.

Numeric model: python/numpy floating point is embedded as exact
arithmetic, `ℚ` where the source computes with rational operations
(percentiles, histogram edges, clipping, flips) and `ℝ` where it applies
transcendental transforms (log10, sqrt, arcsinh).  Arrays are embedded
as flat lists in C order together with their shape, matching numpy's
layout; elementwise numpy primitives are translated pointwise.
-/

namespace FitsView

/-- A floating-point sample: a finite value, or one of the non-finite
IEEE values that `np.isfinite` filters out. -/
inductive Fval where
  | fin (q : ℚ)
  | nan
  | posInf
  | negInf
deriving DecidableEq, Repr

/-- Embedding of `data[np.isfinite(data)]`: the finite samples, in order. -/
def finiteVals (l : List Fval) : List ℚ :=
  l.filterMap (fun v =>
    match v with
    | .fin q => some q
    | _ => none)

/-- Embedding of `ndarray.min()` (0 on the empty array, which numpy rejects). -/
def listMin {α : Type} [LinearOrder α] [Zero α] : List α → α
  | [] => 0
  | x :: xs => xs.foldl min x

/-- Embedding of `ndarray.max()` (0 on the empty array, which numpy rejects). -/
def listMax {α : Type} [LinearOrder α] [Zero α] : List α → α
  | [] => 0
  | x :: xs => xs.foldl max x

theorem foldl_min_le_init {α : Type} [LinearOrder α] (xs : List α) (a : α) :
    xs.foldl min a ≤ a := by
  induction xs generalizing a with
  | nil => simp
  | cons y ys ih =>
    calc (y :: ys).foldl min a = ys.foldl min (min a y) := rfl
    _ ≤ min a y := ih (min a y)
    _ ≤ a := min_le_left _ _

theorem foldl_min_le_mem {α : Type} [LinearOrder α] {xs : List α} {x : α} (a : α)
    (hx : x ∈ xs) : xs.foldl min a ≤ x := by
  induction xs generalizing a with
  | nil => cases hx
  | cons y ys ih =>
    rcases List.mem_cons.mp hx with h | h
    · subst h
      calc (x :: ys).foldl min a = ys.foldl min (min a x) := rfl
      _ ≤ min a x := foldl_min_le_init ys (min a x)
      _ ≤ x := min_le_right _ _
    · exact ih (min a y) h

theorem init_le_foldl_max {α : Type} [LinearOrder α] (xs : List α) (a : α) :
    a ≤ xs.foldl max a := by
  induction xs generalizing a with
  | nil => simp
  | cons y ys ih =>
    calc a ≤ max a y := le_max_left _ _
    _ ≤ ys.foldl max (max a y) := ih (max a y)
    _ = (y :: ys).foldl max a := rfl

theorem mem_le_foldl_max {α : Type} [LinearOrder α] {xs : List α} {x : α} (a : α)
    (hx : x ∈ xs) : x ≤ xs.foldl max a := by
  induction xs generalizing a with
  | nil => cases hx
  | cons y ys ih =>
    rcases List.mem_cons.mp hx with h | h
    · subst h
      calc x ≤ max a x := le_max_right _ _
      _ ≤ ys.foldl max (max a x) := init_le_foldl_max ys (max a x)
      _ = (x :: ys).foldl max a := rfl
    · exact ih (max a y) h

theorem listMin_le_mem {α : Type} [LinearOrder α] [Zero α] {l : List α} {x : α}
    (hx : x ∈ l) : listMin l ≤ x := by
  cases l with
  | nil => cases hx
  | cons y ys =>
    rcases List.mem_cons.mp hx with h | h
    · subst h; exact foldl_min_le_init ys x
    · exact foldl_min_le_mem y h

theorem mem_le_listMax {α : Type} [LinearOrder α] [Zero α] {l : List α} {x : α}
    (hx : x ∈ l) : x ≤ listMax l := by
  cases l with
  | nil => cases hx
  | cons y ys =>
    rcases List.mem_cons.mp hx with h | h
    · subst h; exact init_le_foldl_max ys x
    · exact mem_le_foldl_max y h

theorem foldl_min_mem {α : Type} [LinearOrder α] (xs : List α) (a : α) :
    xs.foldl min a = a ∨ xs.foldl min a ∈ xs := by
  induction xs generalizing a with
  | nil => left; rfl
  | cons y ys ih =>
    rcases ih (min a y) with h | h
    · rcases le_total a y with hay | hya
      · left
        show ys.foldl min (min a y) = a
        rw [h, min_eq_left hay]
      · right
        show ys.foldl min (min a y) ∈ y :: ys
        rw [h, min_eq_right hya]
        exact List.mem_cons_self _ _
    · right
      exact List.mem_cons_of_mem _ h

theorem listMin_mem {α : Type} [LinearOrder α] [Zero α] {l : List α}
    (h : l ≠ []) : listMin l ∈ l := by
  cases l with
  | nil => exact absurd rfl h
  | cons y ys =>
    rcases foldl_min_mem ys y with h2 | h2
    · show ys.foldl min y ∈ y :: ys
      rw [h2]; exact List.mem_cons_self _ _
    · exact List.mem_cons_of_mem _ h2

theorem foldl_max_mem {α : Type} [LinearOrder α] (xs : List α) (a : α) :
    xs.foldl max a = a ∨ xs.foldl max a ∈ xs := by
  induction xs generalizing a with
  | nil => left; rfl
  | cons y ys ih =>
    rcases ih (max a y) with h | h
    · rcases le_total a y with hay | hya
      · right
        show ys.foldl max (max a y) ∈ y :: ys
        rw [h, max_eq_right hay]
        exact List.mem_cons_self _ _
      · left
        show ys.foldl max (max a y) = a
        rw [h, max_eq_left hya]
    · right
      exact List.mem_cons_of_mem _ h

theorem listMax_mem {α : Type} [LinearOrder α] [Zero α] {l : List α}
    (h : l ≠ []) : listMax l ∈ l := by
  cases l with
  | nil => exact absurd rfl h
  | cons y ys =>
    rcases foldl_max_mem ys y with h2 | h2
    · show ys.foldl max y ∈ y :: ys
      rw [h2]; exact List.mem_cons_self _ _
    · exact List.mem_cons_of_mem _ h2

theorem listMin_le_listMax {α : Type} [LinearOrder α] [Zero α] {l : List α}
    (h : l ≠ []) : listMin l ≤ listMax l :=
  mem_le_listMax (listMin_mem h)

/-- Embedding of `np.percentile(l, p)` with numpy's default linear
interpolation: for the ascending sort `s` of `l` with `n` elements, the
value at fractional rank `r = p (n-1) / 100` is `s[⌊r⌋]` interpolated
linearly toward `s[⌊r⌋+1]`. -/
def percentile (l : List ℚ) (p : ℚ) : ℚ :=
  let s := l.insertionSort (· ≤ ·)
  let n := s.length
  let r := p * ((n : ℚ) - 1) / 100
  let i := (Rat.floor r).toNat
  let lo := s.getD i 0
  let hi := s.getD (i + 1) lo
  lo + (r - (i : ℚ)) * (hi - lo)

theorem ratFloor_eq_intFloor (q : ℚ) : Rat.floor q = ⌊q⌋ := by
  apply le_antisymm
  · exact Int.le_floor.mpr (Rat.le_floor.mp le_rfl)
  · exact Rat.le_floor.mpr (Int.floor_le q)

/-- Embedding of `ImageDisplayEngine.auto_scale` applied to an array with
sample list `data` (`src/image_display_engine.py:242`): filter the finite
values, return `(0,1)` if none remain, otherwise take the two percentiles
and apply the degenerate-range fallback ladder. -/
def auto_scale (data : List Fval) (pLow pHigh : ℚ) : ℚ × ℚ :=
  let valid := finiteVals data
  if valid.length = 0 then (0, 1)
  else
    let vmin := percentile valid pLow
    let vmax := percentile valid pHigh
    if vmin ≥ vmax then
      let vmin2 := listMin valid
      let vmax2 := listMax valid
      if vmin2 ≥ vmax2 then (vmin2, vmin2 + 1) else (vmin2, vmax2)
    else (vmin, vmax)

theorem getD_of_const {l : List ℚ} {c : ℚ} (hc : ∀ x ∈ l, x = c) {i : Nat}
    (hi : i < l.length) (d : ℚ) : l.getD i d = c := by
  rw [List.getD_eq_getElem?_getD, List.getElem?_eq_getElem hi]
  exact hc _ (List.getElem_mem hi)

theorem percentile_const {l : List ℚ} {c : ℚ} (hne : l ≠ []) (hc : ∀ x ∈ l, x = c)
    {p : ℚ} (hp0 : 0 ≤ p) (hp1 : p ≤ 100) : percentile l p = c := by
  have hperm := List.perm_insertionSort (α := ℚ) (· ≤ ·) l
  set s := l.insertionSort (· ≤ ·) with hs
  have hlen : s.length = l.length := hperm.length_eq
  have hcs : ∀ x ∈ s, x = c := fun x hx => hc x (hperm.mem_iff.mp hx)
  have hn : 1 ≤ l.length := List.length_pos.mpr hne
  set n := s.length with hnn
  set r := p * ((n : ℚ) - 1) / 100 with hr
  have hn1 : (1 : ℚ) ≤ (n : ℚ) := by
    have : 1 ≤ n := hlen ▸ hn
    exact_mod_cast this
  have hr0 : 0 ≤ r := by
    apply div_nonneg _ (by norm_num)
    exact mul_nonneg hp0 (by linarith)
  have hrn : r ≤ (n : ℚ) - 1 := by
    rw [hr, div_le_iff₀ (by norm_num : (0:ℚ) < 100)]
    calc p * ((n : ℚ) - 1) ≤ 100 * ((n : ℚ) - 1) := by
          apply mul_le_mul_of_nonneg_right hp1 (by linarith)
    _ = ((n : ℚ) - 1) * 100 := by ring
  have hfl : (⌊r⌋ : ℚ) ≤ (n : ℚ) - 1 := le_trans (Int.floor_le r) hrn
  have hfl2 : ⌊r⌋ ≤ (n : Int) - 1 := by exact_mod_cast hfl
  have hfl0 : 0 ≤ ⌊r⌋ := Int.floor_nonneg.mpr hr0
  have hrw : Rat.floor r = ⌊r⌋ := ratFloor_eq_intFloor r
  have hi : (Rat.floor r).toNat < n := by
    rw [hrw]; omega
  show s.getD (Rat.floor r).toNat 0 +
      (r - ((Rat.floor r).toNat : ℚ)) *
        (s.getD ((Rat.floor r).toNat + 1) (s.getD (Rat.floor r).toNat 0) -
          s.getD (Rat.floor r).toNat 0) = c
  have hlo : s.getD (Rat.floor r).toNat 0 = c := getD_of_const hcs hi 0
  rw [hlo]
  have hhi : s.getD ((Rat.floor r).toNat + 1) c = c := by
    by_cases h2 : (Rat.floor r).toNat + 1 < s.length
    · exact getD_of_const hcs h2 _
    · exact List.getD_eq_default _ _ (by omega)
  rw [hhi]
  ring

/-- Claim C2: `auto_scale` returns `(0,1)` when no finite values remain;
on any input with at least one finite value the returned pair satisfies
`vmin < vmax`; on a constant array of finite value `c` it returns
`(c, c+1)`; when the 0.5/99.5 percentiles of the finite values are
non-degenerate they are returned as-is; and a degenerate percentile pair
falls back to `(min, max)` of the finite values when those differ. -/
theorem auto_scale_spec (data : List Fval) (c : ℚ) :
    (finiteVals data = [] → auto_scale data (1/2) (199/2) = (0, 1))
    ∧ (finiteVals data ≠ [] →
        (auto_scale data (1/2) (199/2)).1 < (auto_scale data (1/2) (199/2)).2)
    ∧ (finiteVals data ≠ [] → (∀ x ∈ finiteVals data, x = c) →
        auto_scale data (1/2) (199/2) = (c, c + 1))
    ∧ (finiteVals data ≠ [] →
        percentile (finiteVals data) (1/2) < percentile (finiteVals data) (199/2) →
        auto_scale data (1/2) (199/2)
          = (percentile (finiteVals data) (1/2), percentile (finiteVals data) (199/2)))
    ∧ (finiteVals data ≠ [] →
        percentile (finiteVals data) (199/2) ≤ percentile (finiteVals data) (1/2) →
        listMin (finiteVals data) < listMax (finiteVals data) →
        auto_scale data (1/2) (199/2)
          = (listMin (finiteVals data), listMax (finiteVals data))) := by
  refine ⟨?_, ?_, ?_, ?_, ?_⟩
  · intro h
    simp [auto_scale, h]
  · intro h
    have hlen : ¬ (finiteVals data).length = 0 := by
      simpa [List.length_eq_zero] using h
    simp only [auto_scale, hlen, if_false]
    split
    · split
      · simp only
        linarith
      · rename_i h1 h2
        simp only
        exact lt_of_not_ge h2
    · rename_i h1
      simp only
      exact lt_of_not_ge h1
  · intro h hconst
    have hlen : ¬ (finiteVals data).length = 0 := by
      simpa [List.length_eq_zero] using h
    have hlo : percentile (finiteVals data) (1/2) = c :=
      percentile_const h hconst (by norm_num) (by norm_num)
    have hhi : percentile (finiteVals data) (199/2) = c :=
      percentile_const h hconst (by norm_num) (by norm_num)
    have hmin : listMin (finiteVals data) = c := hconst _ (listMin_mem h)
    have hmax : listMax (finiteVals data) = c := hconst _ (listMax_mem h)
    have hlo2 : percentile (finiteVals data) 2⁻¹ = c := by
      rw [← hlo]; norm_num
    simp [auto_scale, hlen, hlo, hlo2, hhi, hmin, hmax]
  · intro h hlt
    have hlen : ¬ (finiteVals data).length = 0 := by
      simpa [List.length_eq_zero] using h
    unfold auto_scale
    rw [if_neg hlen, if_neg (not_le.mpr hlt)]
  · intro h hge hminmax
    have hlen : ¬ (finiteVals data).length = 0 := by
      simpa [List.length_eq_zero] using h
    unfold auto_scale
    rw [if_neg hlen, if_pos hge, if_neg (not_le.mpr hminmax)]

theorem auto_scale_spec_witness :
    auto_scale [Fval.fin 5, Fval.nan, Fval.fin 5] (1/2) (199/2) = (5, 6)
      ∧ auto_scale [Fval.nan] (1/2) (199/2) = (0, 1) := by
  constructor
  · have h : auto_scale [Fval.fin 5, Fval.nan, Fval.fin 5] (1/2) (199/2) = (5, 5 + 1) := by
      apply (auto_scale_spec [Fval.fin 5, Fval.nan, Fval.fin 5] 5).2.2.1
      · simp [finiteVals, List.filterMap_cons, List.filterMap_nil]
      · intro x hx
        simp [finiteVals, List.filterMap_cons, List.filterMap_nil] at hx
        simpa using hx
    rw [h]
    norm_num
  · apply (auto_scale_spec [Fval.nan] 0).1
    simp [finiteVals, List.filterMap_cons, List.filterMap_nil]

/-- Embedding of numpy's histogram range: `(min, max)` of the data,
widened by one half on each side when the two coincide (numpy's
`_get_outer_edges` correction for constant data), as used by
`np.histogram(valid_data, bins)` in `HistogramWidget.update_histogram`. -/
def histRange (valid : List ℚ) : ℚ × ℚ :=
  let lo := listMin valid
  let hi := listMax valid
  if lo = hi then (lo - 1/2, hi + 1/2) else (lo, hi)

/-- Edge `k` of `bins` uniform-width bins spanning `[first, last]`. -/
def histEdge (first last : ℚ) (bins k : Nat) : ℚ :=
  first + k * (last - first) / bins

/-- Membership of a sample in bin `k`: numpy bins are half-open
`[e_k, e_{k+1})` except the last bin, which also includes its upper edge. -/
def inBin (first last : ℚ) (bins k : Nat) (x : ℚ) : Prop :=
  histEdge first last bins k ≤ x ∧
    (x < histEdge first last bins (k + 1) ∨
      (k = bins - 1 ∧ x ≤ histEdge first last bins bins))

instance (first last : ℚ) (bins k : Nat) (x : ℚ) :
    Decidable (inBin first last bins k x) := by
  unfold inBin
  infer_instance

/-- Embedding of `HistogramWidget.update_histogram`
(`src/histogram_widget.py:41`), restricted to its numerical content: the
non-finite samples are filtered out, and if none remain the function
returns early with no bins; otherwise it returns the per-bin counts of
`np.histogram(valid_data, bins=bins)`. -/
def update_histogram (data : List Fval) (bins : Nat) : List Nat :=
  let valid := finiteVals data
  if valid.length = 0 then []
  else
    let fr := histRange valid
    (List.range bins).map (fun k =>
      (valid.filter (fun x => decide (inBin fr.1 fr.2 bins k x))).length)

theorem histRange_lt {valid : List ℚ} (h : valid ≠ []) :
    (histRange valid).1 < (histRange valid).2 := by
  unfold histRange
  dsimp only
  split_ifs with he
  · show listMin valid - 1/2 < listMax valid + 1/2
    rw [he]
    linarith
  · show listMin valid < listMax valid
    exact lt_of_le_of_ne (listMin_le_listMax h) he

theorem histRange_mem {valid : List ℚ} {x : ℚ} (hx : x ∈ valid) :
    (histRange valid).1 ≤ x ∧ x ≤ (histRange valid).2 := by
  have h1 := listMin_le_mem hx
  have h2 := mem_le_listMax hx
  unfold histRange
  dsimp only
  split_ifs with he
  · constructor
    · show listMin valid - 1/2 ≤ x
      linarith
    · show x ≤ listMax valid + 1/2
      rw [he] at h1
      linarith
  · exact ⟨h1, h2⟩

theorem histEdge_mono {first last : ℚ} {bins : Nat} (hfl : first < last)
    (hb : 1 ≤ bins) {k k2 : Nat} (hk : k ≤ k2) :
    histEdge first last bins k ≤ histEdge first last bins k2 := by
  unfold histEdge
  have hbq : (0 : ℚ) < (bins : ℚ) := by exact_mod_cast hb
  have hkq : (k : ℚ) ≤ (k2 : ℚ) := by exact_mod_cast hk
  have hwpos : (0 : ℚ) ≤ last - first := by linarith
  have hmul : (k : ℚ) * (last - first) ≤ (k2 : ℚ) * (last - first) :=
    mul_le_mul_of_nonneg_right hkq hwpos
  have := div_le_div_of_le_of_nonneg hmul (le_of_lt hbq)
  linarith

theorem histEdge_last {first last : ℚ} {bins : Nat} (hb : 1 ≤ bins) :
    histEdge first last bins bins = last := by
  unfold histEdge
  have hbq : ((bins : ℚ)) ≠ 0 := by
    have : (0 : ℚ) < (bins : ℚ) := by exact_mod_cast hb
    linarith
  field_simp

theorem bin_disjoint {first last : ℚ} {bins : Nat} (hfl : first < last)
    (hb : 1 ≤ bins) {x : ℚ} {k k2 : Nat} (hk : k < k2) (hk2b : k2 < bins)
    (h1 : inBin first last bins k x) (h2 : inBin first last bins k2 x) :
    False := by
  rcases h1 with ⟨h1lo, h1hi⟩
  rcases h1hi with hlt | ⟨hkeq, hle⟩
  · have hmono := histEdge_mono hfl hb (show k + 1 ≤ k2 by omega)
    have h2lo := h2.1
    linarith
  · omega

theorem exists_unique_bin {first last : ℚ} {bins : Nat} (hfl : first < last)
    (hb : 1 ≤ bins) {x : ℚ} (hx1 : first ≤ x) (hx2 : x ≤ last) :
    ∃! k, k < bins ∧ inBin first last bins k x := by
  have hbq : (0 : ℚ) < (bins : ℚ) := by exact_mod_cast hb
  set w : ℚ := (last - first) / bins with hw
  have hwpos : 0 < w := div_pos (by linarith) hbq
  have hedge : ∀ k : Nat, histEdge first last bins k = first + (k : ℚ) * w := by
    intro k
    unfold histEdge
    rw [hw]
    ring
  set r : ℚ := (x - first) / w with hr
  have hr0 : 0 ≤ r := div_nonneg (by linarith) (le_of_lt hwpos)
  have hxr : x = first + r * w := by
    rw [hr]
    field_simp
  have hfl0 : 0 ≤ ⌊r⌋ := Int.floor_nonneg.mpr hr0
  set k0 := min (⌊r⌋).toNat (bins - 1) with hk0
  have hk0b : k0 < bins := by omega
  have hk0in : inBin first last bins k0 x := by
    by_cases hcase : (⌊r⌋).toNat ≤ bins - 1
    · rw [hk0, min_eq_left hcase]
      have hir : (((⌊r⌋).toNat : ℚ)) ≤ r := by
        have h1 : ((⌊r⌋ : ℚ)) ≤ r := Int.floor_le r
        have h2 : (((⌊r⌋).toNat : ℚ)) = ((⌊r⌋ : ℚ)) := by
          exact_mod_cast Int.toNat_of_nonneg hfl0
        linarith
      have hri : r < (((⌊r⌋).toNat : ℚ)) + 1 := by
        have h1 : r < ((⌊r⌋ : ℚ)) + 1 := Int.lt_floor_add_one r
        have h2 : (((⌊r⌋).toNat : ℚ)) = ((⌊r⌋ : ℚ)) := by
          exact_mod_cast Int.toNat_of_nonneg hfl0
        linarith
      constructor
      · rw [hedge, hxr]
        have := mul_le_mul_of_nonneg_right hir (le_of_lt hwpos)
        linarith
      · left
        rw [hedge, hxr]
        push_cast
        have := mul_lt_mul_of_pos_right hri hwpos
        linarith
    · rw [hk0, min_eq_right (by omega)]
      constructor
      · rw [hedge, hxr]
        have hble : ((bins - 1 : Nat) : ℚ) ≤ r := by
          have h1 : ((bins : Nat) : Int) ≤ ⌊r⌋ := by omega
          have h2 : ((bins : ℚ)) ≤ ((⌊r⌋ : ℚ)) := by exact_mod_cast h1
          have h3 : ((⌊r⌋ : ℚ)) ≤ r := Int.floor_le r
          have h4 : ((bins - 1 : Nat) : ℚ) ≤ (bins : ℚ) := by
            have : (bins - 1 : Nat) ≤ bins := by omega
            exact_mod_cast this
          linarith
        have := mul_le_mul_of_nonneg_right hble (le_of_lt hwpos)
        linarith
      · right
        exact ⟨rfl, by rw [histEdge_last hb]; exact hx2⟩
  refine ⟨k0, ⟨hk0b, hk0in⟩, ?_⟩
  intro k2 hk2
  rcases lt_trichotomy k2 k0 with hlt | heq | hgt
  · exact absurd (bin_disjoint hfl hb hlt hk0b hk2.2 hk0in) not_false
  · exact heq
  · exact absurd (bin_disjoint hfl hb hgt hk2.1 hk0in hk2.2) not_false

theorem sum_map_range_eq (f : Nat → Nat) (n : Nat) :
    ((List.range n).map f).sum = ∑ k in Finset.range n, f k := by
  induction n with
  | zero => simp
  | succ m ih =>
    rw [List.range_succ, List.map_append, List.sum_append, Finset.sum_range_succ, ih]
    simp

theorem sum_indicator_of_exists_unique {n : Nat} {p : Nat → Prop} [DecidablePred p]
    (h : ∃! k, k < n ∧ p k) :
    (∑ k in Finset.range n, if p k then 1 else 0) = 1 := by
  obtain ⟨k0, ⟨hk0n, hpk0⟩, huniq⟩ := h
  rw [Finset.sum_boole]
  have : (Finset.range n).filter p = {k0} := by
    ext k
    simp only [Finset.mem_filter, Finset.mem_range, Finset.mem_singleton]
    constructor
    · intro ⟨hkn, hpk⟩
      exact huniq k ⟨hkn, hpk⟩
    · intro hk
      subst hk
      exact ⟨hk0n, hpk0⟩
  rw [this]
  simp

theorem length_filter_partition {α : Type} (l : List α) (n : Nat)
    (p : Nat → α → Prop) [∀ k x, Decidable (p k x)]
    (h : ∀ x ∈ l, ∃! k, k < n ∧ p k x) :
    ((List.range n).map
      (fun k => (l.filter (fun x => decide (p k x))).length)).sum = l.length := by
  induction l with
  | nil => simp
  | cons x xs ih =>
    have hx := h x (List.mem_cons_self _ _)
    have hxs : ∀ y ∈ xs, ∃! k, k < n ∧ p k y :=
      fun y hy => h y (List.mem_cons_of_mem _ hy)
    rw [sum_map_range_eq]
    have hsplit : ∀ k, ((x :: xs).filter (fun y => decide (p k y))).length
        = (xs.filter (fun y => decide (p k y))).length + (if p k x then 1 else 0) := by
      intro k
      rw [List.filter_cons]
      by_cases hp : p k x
      · simp [hp]
      · simp [hp]
    calc (∑ k in Finset.range n, ((x :: xs).filter (fun y => decide (p k y))).length)
        = ∑ k in Finset.range n,
            ((xs.filter (fun y => decide (p k y))).length + if p k x then 1 else 0) := by
          exact Finset.sum_congr rfl (fun k _ => hsplit k)
    _ = (∑ k in Finset.range n, (xs.filter (fun y => decide (p k y))).length)
          + ∑ k in Finset.range n, (if p k x then 1 else 0) := Finset.sum_add_distrib
    _ = xs.length + 1 := by
          rw [sum_indicator_of_exists_unique hx, ← sum_map_range_eq, ih hxs]
    _ = (x :: xs).length := by simp

/-- Claim C9: for every input array and bin count at least 1, the histogram
bin counts sum to the number of finite samples (non-finite values are
filtered before binning), and when no finite values remain the bin set is
empty. -/
theorem update_histogram_spec (data : List Fval) (bins : Nat) (hb : 1 ≤ bins) :
    (update_histogram data bins).sum = (finiteVals data).length
    ∧ (finiteVals data = [] → update_histogram data bins = []) := by
  constructor
  · by_cases hv : finiteVals data = []
    · simp [update_histogram, hv]
    · have hlen : ¬ (finiteVals data).length = 0 := by
        simpa [List.length_eq_zero] using hv
      unfold update_histogram
      rw [if_neg hlen]
      apply length_filter_partition (finiteVals data) bins
        (fun k x => inBin (histRange (finiteVals data)).1
          (histRange (finiteVals data)).2 bins k x)
      intro x hx
      have hb1 := histRange_lt hv
      have hb2 := histRange_mem hx
      exact exists_unique_bin hb1 hb (hb2.1) (hb2.2)
  · intro hv
    simp [update_histogram, hv]

theorem update_histogram_spec_witness :
    (update_histogram [Fval.fin 1, Fval.nan, Fval.fin 2, Fval.fin 1] 3).sum = 3 := by
  rw [(update_histogram_spec [Fval.fin 1, Fval.nan, Fval.fin 2, Fval.fin 1] 3
    (by norm_num)).1]
  simp [finiteVals, List.filterMap_cons, List.filterMap_nil]

/-- Embedding of `np.clip(x, vmin, vmax)` applied elementwise. -/
def npClip (vmin vmax x : ℝ) : ℝ := min (max x vmin) vmax

/-- The secondary min-max normalization shared by the log/sqrt/asinh
branches of `_apply_scaling_to_channel`: normalize by the transformed
values own min/max when they differ, otherwise return them unchanged. -/
noncomputable def normalizeMinMax (l : List ℝ) : List ℝ :=
  if listMin l < listMax l then
    l.map (fun x => (x - listMin l) / (listMax l - listMin l))
  else l

/-- The `linear` branch of `_apply_scaling_to_channel` (also the fallback
for an unrecognized mode): clip, then min-max normalize with the given
bounds when `vmax > vmin`, else return the clipped values. -/
noncomputable def linearScaled (vmin vmax : ℝ) (data : List ℝ) : List ℝ :=
  let clipped := data.map (npClip vmin vmax)
  if vmin < vmax then clipped.map (fun x => (x - vmin) / (vmax - vmin)) else clipped

/-- The pre-normalization values of the `log` branch:
`np.log10(clipped - vmin + 1)`. -/
noncomputable def logScaled (vmin vmax : ℝ) (data : List ℝ) : List ℝ :=
  (data.map (npClip vmin vmax)).map (fun x => Real.logb 10 (x - vmin + 1))

/-- The pre-normalization values of the `sqrt` branch:
`np.sqrt(np.abs(clipped - vmin))`. -/
noncomputable def sqrtScaled (vmin vmax : ℝ) (data : List ℝ) : List ℝ :=
  (data.map (npClip vmin vmax)).map (fun x => Real.sqrt |x - vmin|)

/-- The pre-normalization values of the `asinh` branch:
`np.arcsinh(clipped)`. -/
noncomputable def asinhScaled (vmin vmax : ℝ) (data : List ℝ) : List ℝ :=
  (data.map (npClip vmin vmax)).map Real.arsinh

/-- Embedding of `ImageDisplayEngine._apply_scaling_to_channel`
(`src/image_display_engine.py:187`) on one channel with sample list
`data`, active bounds `vmin < vmax` and mode string `mode`. -/
noncomputable def apply_scaling_to_channel (vmin vmax : ℝ) (mode : String)
    (data : List ℝ) : List ℝ :=
  if mode = "linear" then linearScaled vmin vmax data
  else if mode = "log" then normalizeMinMax (logScaled vmin vmax data)
  else if mode = "sqrt" then normalizeMinMax (sqrtScaled vmin vmax data)
  else if mode = "asinh" then normalizeMinMax (asinhScaled vmin vmax data)
  else linearScaled vmin vmax data

/-- A displayable array as `_apply_scaling` sees it: a single grayscale
channel, or three RGB channels (channel-last layout, flattened per channel). -/
inductive DisplayData where
  | gray (channel : List ℝ)
  | rgb (r g b : List ℝ)

/-- The channels of a displayable array, in order. -/
def DisplayData.channels : DisplayData → List (List ℝ)
  | .gray l => [l]
  | .rgb r g b => [r, g, b]

/-- Embedding of `ImageDisplayEngine._apply_scaling`
(`src/image_display_engine.py:162`): RGB input is scaled per channel with
the same bounds and mode; grayscale input is scaled as one channel. -/
noncomputable def apply_scaling (vmin vmax : ℝ) (mode : String)
    (d : DisplayData) : DisplayData :=
  match d with
  | .gray l => .gray (apply_scaling_to_channel vmin vmax mode l)
  | .rgb r g b =>
      .rgb (apply_scaling_to_channel vmin vmax mode r)
        (apply_scaling_to_channel vmin vmax mode g)
        (apply_scaling_to_channel vmin vmax mode b)

/-- Non-degeneracy of the secondary normalization: for the three modes
that re-normalize by the transformed values own min/max, those min and max
differ (the transformed channel is not constant). -/
def nondegenerate (vmin vmax : ℝ) (mode : String) (l : List ℝ) : Prop :=
  (mode = "log" →
    listMin (logScaled vmin vmax l) < listMax (logScaled vmin vmax l))
  ∧ (mode = "sqrt" →
    listMin (sqrtScaled vmin vmax l) < listMax (sqrtScaled vmin vmax l))
  ∧ (mode = "asinh" →
    listMin (asinhScaled vmin vmax l) < listMax (asinhScaled vmin vmax l))

theorem npClip_mem {vmin vmax : ℝ} (h : vmin ≤ vmax) (x : ℝ) :
    vmin ≤ npClip vmin vmax x ∧ npClip vmin vmax x ≤ vmax := by
  unfold npClip
  constructor
  · exact le_min (le_max_right _ _) h
  · exact min_le_right _ _

theorem normalizeMinMax_mem {l : List ℝ} (hl : listMin l < listMax l) :
    ∀ y ∈ normalizeMinMax l, 0 ≤ y ∧ y ≤ 1 := by
  intro y hy
  unfold normalizeMinMax at hy
  rw [if_pos hl] at hy
  obtain ⟨x, hx, rfl⟩ := List.mem_map.mp hy
  have h1 := listMin_le_mem hx
  have h2 := mem_le_listMax hx
  have hpos : (0 : ℝ) < listMax l - listMin l := by linarith
  constructor
  · exact div_nonneg (by linarith) (le_of_lt hpos)
  · rw [div_le_one hpos]
    linarith

theorem linearScaled_mem {vmin vmax : ℝ} (h : vmin < vmax) (data : List ℝ) :
    ∀ y ∈ linearScaled vmin vmax data, 0 ≤ y ∧ y ≤ 1 := by
  intro y hy
  unfold linearScaled at hy
  rw [if_pos h] at hy
  rw [List.map_map] at hy
  obtain ⟨x, _, rfl⟩ := List.mem_map.mp hy
  have hc := npClip_mem (le_of_lt h) x
  have hpos : (0 : ℝ) < vmax - vmin := by linarith
  constructor
  · show 0 ≤ (npClip vmin vmax x - vmin) / (vmax - vmin)
    exact div_nonneg (by linarith [hc.1]) (le_of_lt hpos)
  · show (npClip vmin vmax x - vmin) / (vmax - vmin) ≤ 1
    rw [div_le_one hpos]
    linarith [hc.2]

theorem apply_scaling_to_channel_mem {vmin vmax : ℝ} {mode : String}
    {data : List ℝ} (h : vmin < vmax) (hnd : nondegenerate vmin vmax mode data) :
    ∀ y ∈ apply_scaling_to_channel vmin vmax mode data, 0 ≤ y ∧ y ≤ 1 := by
  unfold apply_scaling_to_channel
  split_ifs with h1 h2 h3 h4
  · exact linearScaled_mem h data
  · exact normalizeMinMax_mem (hnd.1 h2)
  · exact normalizeMinMax_mem (hnd.2.1 h3)
  · exact normalizeMinMax_mem (hnd.2.2 h4)
  · exact linearScaled_mem h data

/-- Claim C1 (amended): for valid bounds `vmin < vmax`, every output value
of the scaling transform lies in `[0,1]` for the linear mode and the
unrecognized-mode fallback unconditionally, and for the log, sqrt and
asinh modes whenever the intermediate transformed channel is non-constant;
RGB input is covered per channel.  (The unamended claim fails when the
intermediate channel is constant: see the counterexample.) -/
theorem apply_scaling_mem_Icc (vmin vmax : ℝ) (mode : String) (d : DisplayData)
    (h : vmin < vmax) (hnd : ∀ l ∈ d.channels, nondegenerate vmin vmax mode l) :
    ∀ c ∈ (apply_scaling vmin vmax mode d).channels, ∀ y ∈ c, 0 ≤ y ∧ y ≤ 1 := by
  cases d with
  | gray l =>
    intro c hc
    simp only [apply_scaling, DisplayData.channels, List.mem_singleton] at hc
    subst hc
    exact apply_scaling_to_channel_mem h (hnd l (by simp [DisplayData.channels]))
  | rgb r g b =>
    intro c hc
    simp only [apply_scaling, DisplayData.channels, List.mem_cons,
      List.mem_singleton, List.not_mem_nil, or_false] at hc
    rcases hc with hc | hc | hc <;> subst hc
    · exact apply_scaling_to_channel_mem h (hnd r (by simp [DisplayData.channels]))
    · exact apply_scaling_to_channel_mem h (hnd g (by simp [DisplayData.channels]))
    · exact apply_scaling_to_channel_mem h (hnd b (by simp [DisplayData.channels]))

theorem normalizeMinMax_singleton (c : ℝ) : normalizeMinMax [c] = [c] := by
  unfold normalizeMinMax listMin listMax
  simp

theorem logb_ten_hundred : Real.logb 10 100 = 2 := by
  have h100 : (100 : ℝ) = 10 ^ (2 : ℕ) := by norm_num
  have h10 : Real.log 10 ≠ 0 := ne_of_gt (Real.log_pos (by norm_num))
  rw [h100]
  simp only [Real.logb, Real.log_pow]
  field_simp

/-- Counterexample to claim C1 as stated: with valid bounds `(0, 100)`
(`0 < 100`), mode `log`, and the finite one-element array `[99]`, the
intermediate logged channel is the constant `[log10(100)]`, so the code
returns it unnormalized, and `log10(100) = 2` lies outside `[0, 1]`. -/
theorem apply_scaling_to_channel_not_subset_Icc :
    (0 : ℝ) < 100 ∧
    ¬ (∀ y ∈ apply_scaling_to_channel 0 100 "log" [99], 0 ≤ y ∧ y ≤ 1) := by
  refine ⟨by norm_num, ?_⟩
  intro h
  have hclip : npClip 0 100 (99 : ℝ) = 99 := by
    unfold npClip
    rw [max_eq_left (by norm_num), min_eq_left (by norm_num)]
  have hlog : logScaled 0 100 [(99 : ℝ)] = [Real.logb 10 100] := by
    unfold logScaled
    rw [List.map_cons, List.map_nil, List.map_cons, List.map_nil, hclip]
    norm_num
  have hout : apply_scaling_to_channel 0 100 "log" [(99 : ℝ)]
      = [Real.logb 10 100] := by
    unfold apply_scaling_to_channel
    rw [if_neg (by decide), if_pos rfl, hlog, normalizeMinMax_singleton]
  have hmem : Real.logb 10 100 ∈ apply_scaling_to_channel 0 100 "log" [(99 : ℝ)] := by
    rw [hout]
    exact List.mem_singleton_self _
  have hle := (h _ hmem).2
  rw [logb_ten_hundred] at hle
  linarith

theorem apply_scaling_mem_Icc_witness :
    (0 : ℝ) < 1 ∧
    (∀ c ∈ (apply_scaling 0 1 "linear" (DisplayData.gray [0, 2])).channels,
      ∀ y ∈ c, 0 ≤ y ∧ y ≤ 1) := by
  refine ⟨by norm_num, ?_⟩
  apply apply_scaling_mem_Icc 0 1 "linear" (DisplayData.gray [0, 2]) (by norm_num)
  intro l hl
  refine ⟨?_, ?_, ?_⟩ <;> intro hmode <;> exact absurd hmode (by decide)

/-- The numpy element types the viewer distinguishes: signed/unsigned
integers and floats. -/
inductive DType where
  | int8 | int16 | int32 | int64
  | uint8 | uint16 | uint32 | uint64
  | float32 | float64
deriving DecidableEq, Repr

/-- Whether the dtype is an integer type (`np.issubdtype(t, np.integer)`). -/
def DType.isInt : DType → Bool
  | .float32 => false
  | .float64 => false
  | _ => true

/-- `np.iinfo(t).min` for integer dtypes (unused for floats). -/
def DType.tmin : DType → Int
  | .int8 => -128
  | .int16 => -32768
  | .int32 => -2147483648
  | .int64 => -9223372036854775808
  | _ => 0

/-- `np.iinfo(t).max` for integer dtypes (unused for floats). -/
def DType.tmax : DType → Int
  | .int8 => 127
  | .int16 => 32767
  | .int32 => 2147483647
  | .int64 => 9223372036854775807
  | .uint8 => 255
  | .uint16 => 65535
  | .uint32 => 4294967295
  | .uint64 => 18446744073709551615
  | _ => 0

/-- `str(t)`, as stored in the HDU info dicts. -/
def DType.name : DType → String
  | .int8 => "int8"
  | .int16 => "int16"
  | .int32 => "int32"
  | .int64 => "int64"
  | .uint8 => "uint8"
  | .uint16 => "uint16"
  | .uint32 => "uint32"
  | .uint64 => "uint64"
  | .float32 => "float32"
  | .float64 => "float64"

theorem DType.tmin_le_tmax (t : DType) : t.tmin ≤ t.tmax := by
  cases t <;> decide

/-- An N-dimensional numpy array: its shape, element dtype, and the
elements as a flat list in C (row-major) order.  Float values are embedded
exactly as rationals. -/
structure NDArr where
  shape : List Nat
  dtype : DType
  data : List ℚ
deriving DecidableEq, Repr

/-- `ndarray.ndim`. -/
def NDArr.ndim (a : NDArr) : Nat := a.shape.length

/-- Flat element access with numpy semantics restricted to in-range reads;
out-of-range reads default to 0. -/
def NDArr.item (a : NDArr) (k : Nat) : ℚ := a.data.getD k 0

/-- Representation invariant of a materialized numpy array of integer
dtype: every stored value lies in the representable range of the dtype. -/
def NDArr.valsOK (a : NDArr) : Prop :=
  a.dtype.isInt = true →
    ∀ x ∈ a.data, (a.dtype.tmin : ℚ) ≤ x ∧ x ≤ (a.dtype.tmax : ℚ)

/-- `np.transpose(data, (1, 2, 0))` on a channel-major RGB array of shape
`[3, h, w]`: output index `(i, j, c)` reads input index `(c, i, j)`. -/
def transposeRGB (a : NDArr) : NDArr :=
  let h := a.shape.getD 1 0
  let w := a.shape.getD 2 0
  { shape := [h, w, 3], dtype := a.dtype,
    data := (List.range (h * w * 3)).map
      (fun k => a.item ((k % 3) * (h * w) + (k / 3 / w) * w + k / 3 % w)) }

/-- `data[d0 // 2]`: select the middle index of the leading axis, keeping
the remaining axes (numpy basic indexing on axis 0). -/
def sliceMiddleFirst (a : NDArr) : NDArr :=
  match a.shape with
  | d0 :: rest =>
      let bs := rest.prod
      { shape := rest, dtype := a.dtype,
        data := (List.range bs).map (fun k => a.item (d0 / 2 * bs + k)) }
  | [] => a

/-- `data[tuple(shape[i] // 2 for i in range(ndim-2))]`: select the middle
index along every leading axis beyond the last two. -/
def reduceLead (a : NDArr) : NDArr :=
  sliceMiddleFirst^[a.ndim - 2] a

/-- Embedding of `ImageDisplayEngine._prepare_data_for_display`
(`src/image_display_engine.py:127`) on the current array: `none` models the
`None` (not displayable) result. -/
def prepare_data_for_display (a : NDArr) : Option NDArr :=
  if a.ndim = 1 then none
  else if a.ndim = 2 then some a
  else if a.ndim = 3 then
    if a.shape.headD 0 = 3 then some (transposeRGB a) else some (sliceMiddleFirst a)
  else some (reduceLead a)

/-- The flat offset of the block selected by taking the middle index along
every leading axis beyond the last two, in C order. -/
def leadOffset : List Nat → Nat
  | d0 :: d1 :: d2 :: rest => d0 / 2 * (d1 :: d2 :: rest).prod + leadOffset (d1 :: d2 :: rest)
  | _ => 0

/-- Truncation toward zero, the semantics of a float-to-int `astype`. -/
def ratTrunc (x : ℚ) : ℚ := if 0 ≤ x then ((⌊x⌋ : Int) : ℚ) else ((⌈x⌉ : Int) : ℚ)

/-- `ndarray.astype(t)` elementwise: truncation for integer targets,
value-preserving for float targets. -/
def astype (t : DType) (x : ℚ) : ℚ := if t.isInt then ratTrunc x else x

/-- The dtype-preservation step of `MainWindow.apply_transformations`
(`src/main_window.py:2109`): if rotation changed the dtype, clip integer
targets to their representable range, then cast back to the original
dtype. -/
def restoreDtype (orig : DType) (a : NDArr) : NDArr :=
  if a.dtype = orig then a
  else
    let clipped :=
      if orig.isInt then
        a.data.map (fun x => min (max x ((orig.tmin : Int) : ℚ)) ((orig.tmax : Int) : ℚ))
      else a.data
    { shape := a.shape, dtype := orig, data := clipped.map (astype orig) }

/-- `data[i]` on a channel-major RGB array of shape `[3, h, w]`: the
`i`-th channel as a 2D array. -/
def channel (a : NDArr) (i : Nat) : NDArr :=
  let bs := (a.shape.drop 1).prod
  { shape := a.shape.drop 1, dtype := a.dtype,
    data := (List.range bs).map (fun k => a.item (i * bs + k)) }

/-- The rotation call of `apply_transformations`: channel-major RGB arrays
are rotated channel by channel and reassembled with `np.array`, everything
else is rotated whole.  `rot` abstracts `scipy.ndimage.rotate` (reshaping
bilinear rotation with constant fill), which is not rational arithmetic. -/
def ndRotate (rot : NDArr → ℚ → NDArr) (a : NDArr) (angle : ℚ) : NDArr :=
  if a.ndim = 3 ∧ a.shape.headD 0 = 3 then
    let c0 := rot (channel a 0) angle
    let c1 := rot (channel a 1) angle
    let c2 := rot (channel a 2) angle
    { shape := 3 :: c0.shape, dtype := c0.dtype, data := c0.data ++ c1.data ++ c2.data }
  else rot a angle

/-- The full rotation step of `apply_transformations`
(`src/main_window.py:2091`): skip when the angle is 0, otherwise rotate
and restore the original dtype. -/
def rotateStep (rot : NDArr → ℚ → NDArr) (angle : ℚ) (a : NDArr) : NDArr :=
  if angle ≠ 0 then restoreDtype a.dtype (ndRotate rot a angle) else a

/-- `np.flip(data, axis=-1)`: reverse the last axis. -/
def flipLastAxis (a : NDArr) : NDArr :=
  let w := a.shape.getLastD 1
  { a with data := ((List.range a.data.length).map
      (fun k => a.item (k / w * w + (w - 1 - k % w)))) }

/-- `np.flip(data, axis=-2)`: reverse the second-to-last axis. -/
def flipSecondLastAxis (a : NDArr) : NDArr :=
  let w := a.shape.getLastD 1
  let h := a.shape.getD (a.shape.length - 2) 1
  { a with data := ((List.range a.data.length).map
      (fun k => a.item (k / (h * w) * (h * w) + (h - 1 - k % (h * w) / w) * w + k % w))) }

/-- The engine state of `ImageDisplayEngine` (its numerical fields):
current array, scaling bounds (`None` until first set), mode and
colormap. -/
structure EngineState where
  current_data : Option NDArr
  vmin : Option ℚ
  vmax : Option ℚ
  scaling_mode : String
  colormap : String
deriving DecidableEq, Repr

/-- `self.auto_scale()` on the engine's current array with the default
percentiles; all values of the rational embedding are finite. -/
def EngineState.autoScaleCurrent (e : EngineState) : ℚ × ℚ :=
  match e.current_data with
  | none => (0, 1)
  | some a => auto_scale (a.data.map Fval.fin) (1/2) (199/2)

/-- Embedding of `ImageDisplayEngine.set_data`
(`src/image_display_engine.py:42`): `None` is ignored; otherwise the array
is stored and both bounds are recomputed by `auto_scale`. -/
def set_data (e : EngineState) (a : Option NDArr) : EngineState :=
  match a with
  | none => e
  | some d =>
      let e2 := { e with current_data := some d }
      let vv := e2.autoScaleCurrent
      { e2 with vmin := some vv.1, vmax := some vv.2 }

/-- Embedding of `ImageDisplayEngine.set_scaling_limits`
(`src/image_display_engine.py:280`): the bounds are updated only when
`vmin < vmax`. -/
def set_scaling_limits (e : EngineState) (v w : ℚ) : EngineState :=
  if v < w then { e with vmin := some v, vmax := some w } else e

/-- The transformation-related state of `MainWindow`: the data source's
array for the current HDU, the captured canonical array, the transform
parameters, and the display engine. -/
structure WindowState where
  fits_data : Option NDArr
  original_data : Option NDArr
  rotation_angle : ℚ
  flip_horizontal : Bool
  flip_vertical : Bool
  engine : EngineState
deriving DecidableEq, Repr

/-- Python's `%` on reals with positive modulus `360`. -/
def qmod360 (a : ℚ) : ℚ := a - 360 * ((Rat.floor (a / 360) : Int) : ℚ)

/-- The body of `apply_transformations` once the canonical array `d0` to
replay from is fixed: rotate, flip, hand the result to the engine, and
restore the previously active bounds when both were set
(`src/main_window.py:2087`). -/
def applyCore (rot : NDArr → ℚ → NDArr) (st : WindowState) (d0 : NDArr) : WindowState :=
  let data1 := rotateStep rot st.rotation_angle d0
  let data2 := if st.flip_horizontal then flipLastAxis data1 else data1
  let data3 := if st.flip_vertical then flipSecondLastAxis data2 else data2
  let old_vmin := st.engine.vmin
  let old_vmax := st.engine.vmax
  let e1 := set_data st.engine (some data3)
  let e2 :=
    match old_vmin, old_vmax with
    | some v, some w => { e1 with vmin := some v, vmax := some w }
    | _, _ => e1
  { st with engine := e2 }

/-- Embedding of `MainWindow.apply_transformations`
(`src/main_window.py:2068`): no-op without displayed data; replays from
the stored canonical array, capturing it first from the data source when
not yet stored. -/
def apply_transformations (rot : NDArr → ℚ → NDArr) (st : WindowState) : WindowState :=
  if st.engine.current_data = none then st
  else
    match st.original_data with
    | some d0 => applyCore rot st d0
    | none =>
        match st.fits_data with
        | none => st
        | some d => applyCore rot { st with original_data := some d } d

/-- Embedding of `MainWindow.rotate_image` (`src/main_window.py:2000`):
the stored angle is replaced (not composed) by `angle % 360`, then the
transforms are replayed. -/
def rotate_image (rot : NDArr → ℚ → NDArr) (angle : ℚ) (st : WindowState) : WindowState :=
  if st.engine.current_data = none then st
  else apply_transformations rot { st with rotation_angle := qmod360 angle }

/-- Embedding of `MainWindow.flip_horizontal_image` (`src/main_window.py:2030`). -/
def flip_horizontal_image (rot : NDArr → ℚ → NDArr) (st : WindowState) : WindowState :=
  if st.engine.current_data = none then st
  else apply_transformations rot { st with flip_horizontal := !st.flip_horizontal }

/-- Embedding of `MainWindow.flip_vertical_image` (`src/main_window.py:2041`). -/
def flip_vertical_image (rot : NDArr → ℚ → NDArr) (st : WindowState) : WindowState :=
  if st.engine.current_data = none then st
  else apply_transformations rot { st with flip_vertical := !st.flip_vertical }

/-- A user transform action: set an absolute rotation angle, or toggle
one of the flips. -/
inductive TOp where
  | rotate (angle : ℚ)
  | flipH
  | flipV
deriving DecidableEq, Repr

/-- Run one transform action. -/
def runOp (rot : NDArr → ℚ → NDArr) (st : WindowState) : TOp → WindowState
  | .rotate angle => rotate_image rot angle st
  | .flipH => flip_horizontal_image rot st
  | .flipV => flip_vertical_image rot st

/-- Run a sequence of transform actions. -/
def runOps (rot : NDArr → ℚ → NDArr) (st : WindowState) (ops : List TOp) : WindowState :=
  ops.foldl (runOp rot) st

/-- The pure replay function: the displayed array as a function of only
the canonical array and the transform parameters. -/
def transformOf (rot : NDArr → ℚ → NDArr) (a0 : NDArr) (angle : ℚ) (fh fv : Bool) : NDArr :=
  let d1 := rotateStep rot angle a0
  let d2 := if fh then flipLastAxis d1 else d1
  if fv then flipSecondLastAxis d2 else d2

theorem applyCore_original (rot : NDArr → ℚ → NDArr) (st : WindowState) (d0 : NDArr) :
    (applyCore rot st d0).original_data = st.original_data := rfl

theorem applyCore_fits (rot : NDArr → ℚ → NDArr) (st : WindowState) (d0 : NDArr) :
    (applyCore rot st d0).fits_data = st.fits_data := rfl

theorem applyCore_angle (rot : NDArr → ℚ → NDArr) (st : WindowState) (d0 : NDArr) :
    (applyCore rot st d0).rotation_angle = st.rotation_angle := rfl

theorem applyCore_fh (rot : NDArr → ℚ → NDArr) (st : WindowState) (d0 : NDArr) :
    (applyCore rot st d0).flip_horizontal = st.flip_horizontal := rfl

theorem applyCore_fv (rot : NDArr → ℚ → NDArr) (st : WindowState) (d0 : NDArr) :
    (applyCore rot st d0).flip_vertical = st.flip_vertical := rfl

theorem applyCore_current (rot : NDArr → ℚ → NDArr) (st : WindowState) (d0 : NDArr) :
    (applyCore rot st d0).engine.current_data
      = some (transformOf rot d0 st.rotation_angle st.flip_horizontal st.flip_vertical) := by
  unfold applyCore transformOf set_data
  cases hv : st.engine.vmin <;> cases hw : st.engine.vmax <;> simp

theorem applyCore_bounds {st : WindowState} {v w : ℚ}
    (rot : NDArr → ℚ → NDArr) (d0 : NDArr)
    (hv : st.engine.vmin = some v) (hw : st.engine.vmax = some w) :
    (applyCore rot st d0).engine.vmin = some v
    ∧ (applyCore rot st d0).engine.vmax = some w := by
  unfold applyCore
  simp [hv, hw]

theorem apply_transformations_params (rot : NDArr → ℚ → NDArr) (s : WindowState) :
    (apply_transformations rot s).rotation_angle = s.rotation_angle
    ∧ (apply_transformations rot s).flip_horizontal = s.flip_horizontal
    ∧ (apply_transformations rot s).flip_vertical = s.flip_vertical
    ∧ (apply_transformations rot s).fits_data = s.fits_data := by
  unfold apply_transformations
  split_ifs with h
  · exact ⟨rfl, rfl, rfl, rfl⟩
  · cases ho : s.original_data with
    | some d0 => exact ⟨rfl, rfl, rfl, rfl⟩
    | none =>
      cases hf : s.fits_data with
      | none => exact ⟨rfl, rfl, rfl, hf⟩
      | some d => exact ⟨rfl, rfl, rfl, rfl⟩

theorem apply_transformations_captured (rot : NDArr → ℚ → NDArr) {s : WindowState}
    {a0 : NDArr} (ho : s.original_data = some a0)
    (hcd : s.engine.current_data ≠ none) :
    (apply_transformations rot s).original_data = some a0
    ∧ (apply_transformations rot s).engine.current_data
        = some (transformOf rot a0 s.rotation_angle s.flip_horizontal s.flip_vertical) := by
  unfold apply_transformations
  rw [if_neg hcd]
  simp only [ho]
  refine ⟨?_, applyCore_current rot s a0⟩
  rw [applyCore_original]
  exact ho

theorem apply_transformations_step (rot : NDArr → ℚ → NDArr) {s : WindowState}
    {a0 : NDArr} (hfd : s.fits_data = some a0)
    (horig : s.original_data = none ∨ s.original_data = some a0)
    (hcd : s.engine.current_data ≠ none) :
    (apply_transformations rot s).fits_data = some a0
    ∧ (apply_transformations rot s).original_data = some a0
    ∧ (apply_transformations rot s).rotation_angle = s.rotation_angle
    ∧ (apply_transformations rot s).flip_horizontal = s.flip_horizontal
    ∧ (apply_transformations rot s).flip_vertical = s.flip_vertical
    ∧ (apply_transformations rot s).engine.current_data
        = some (transformOf rot a0 s.rotation_angle s.flip_horizontal s.flip_vertical) := by
  have hparams := apply_transformations_params rot s
  rcases horig with ho | ho
  · constructor
    · rw [hparams.2.2.2]
      exact hfd
    · unfold apply_transformations
      rw [if_neg hcd]
      simp only [ho, hfd]
      refine ⟨by rw [applyCore_original], rfl, rfl, rfl, ?_⟩
      exact applyCore_current rot { s with original_data := some a0 } a0
  · have hcap := apply_transformations_captured rot ho hcd
    exact ⟨by rw [hparams.2.2.2]; exact hfd, hcap.1, hparams.1, hparams.2.1,
      hparams.2.2.1, hcap.2⟩

theorem runOp_step (rot : NDArr → ℚ → NDArr) {s : WindowState} {a0 : NDArr}
    (op : TOp) (hfd : s.fits_data = some a0)
    (horig : s.original_data = none ∨ s.original_data = some a0)
    (hcd : s.engine.current_data.isSome = true) :
    (runOp rot s op).fits_data = some a0
    ∧ (runOp rot s op).original_data = some a0
    ∧ (runOp rot s op).engine.current_data
        = some (transformOf rot a0 (runOp rot s op).rotation_angle
            (runOp rot s op).flip_horizontal (runOp rot s op).flip_vertical) := by
  have hne : s.engine.current_data ≠ none := by
    intro h
    rw [h] at hcd
    exact Bool.false_ne_true hcd
  cases op with
  | rotate angle =>
    simp only [runOp]
    unfold rotate_image
    rw [if_neg hne]
    have hstep := apply_transformations_step rot
      (s := { s with rotation_angle := qmod360 angle }) hfd horig hne
    refine ⟨hstep.1, hstep.2.1, ?_⟩
    rw [hstep.2.2.1, hstep.2.2.2.1, hstep.2.2.2.2.1]
    exact hstep.2.2.2.2.2
  | flipH =>
    simp only [runOp]
    unfold flip_horizontal_image
    rw [if_neg hne]
    have hstep := apply_transformations_step rot
      (s := { s with flip_horizontal := !s.flip_horizontal }) hfd horig hne
    refine ⟨hstep.1, hstep.2.1, ?_⟩
    rw [hstep.2.2.1, hstep.2.2.2.1, hstep.2.2.2.2.1]
    exact hstep.2.2.2.2.2
  | flipV =>
    simp only [runOp]
    unfold flip_vertical_image
    rw [if_neg hne]
    have hstep := apply_transformations_step rot
      (s := { s with flip_vertical := !s.flip_vertical }) hfd horig hne
    refine ⟨hstep.1, hstep.2.1, ?_⟩
    rw [hstep.2.2.1, hstep.2.2.2.1, hstep.2.2.2.2.1]
    exact hstep.2.2.2.2.2

/-- Claim C3: starting from a state whose canonical array was captured
from the data source as `a0` (or not yet captured, with the source
yielding `a0`), after any non-empty sequence of rotate/flip operations the
stored canonical array still equals `a0`, and the displayed array is the
pure replay `transformOf` of `a0` under the current transform parameters
— it is recomputed from the canonical array, never derived from the
previously transformed array, and the canonical array is never written. -/
theorem runOps_canonical_replay (rot : NDArr → ℚ → NDArr) (st : WindowState)
    (a0 : NDArr) (hfd : st.fits_data = some a0)
    (horig : st.original_data = none ∨ st.original_data = some a0)
    (hcd : st.engine.current_data.isSome = true)
    (ops : List TOp) (hne : ops ≠ []) :
    (runOps rot st ops).original_data = some a0
    ∧ (runOps rot st ops).engine.current_data
        = some (transformOf rot a0 (runOps rot st ops).rotation_angle
            (runOps rot st ops).flip_horizontal (runOps rot st ops).flip_vertical) := by
  revert hne
  revert st
  induction ops with
  | nil =>
    intro st hfd horig hcd hne
    exact absurd rfl hne
  | cons op rest ih =>
    intro st hfd horig hcd hne
    have hstep := runOp_step rot op hfd horig hcd
    by_cases hrest : rest = []
    · subst hrest
      exact ⟨hstep.2.1, hstep.2.2⟩
    · have hsome : (runOp rot st op).engine.current_data.isSome = true := by
        rw [hstep.2.2]
        rfl
      exact ih (runOp rot st op) hstep.1 (Or.inr hstep.2.1) hsome hrest

/-- A sequence of rotation requests, applied in order. -/
def foldRotations (rot : NDArr → ℚ → NDArr) (st : WindowState) (angles : List ℚ) :
    WindowState :=
  angles.foldl (fun s angle => rotate_image rot angle s) st

theorem qmod360_zero : qmod360 0 = 0 := by
  unfold qmod360
  rw [ratFloor_eq_intFloor]
  norm_num

theorem qmod360_360 : qmod360 360 = 0 := by
  unfold qmod360
  rw [ratFloor_eq_intFloor]
  norm_num

theorem transformOf_identity (rot : NDArr → ℚ → NDArr) (a0 : NDArr) :
    transformOf rot a0 0 false false = a0 := by
  unfold transformOf rotateStep
  simp

theorem rotate_fold_inv (rot : NDArr → ℚ → NDArr) (a0 : NDArr) (angles : List ℚ) :
    ∀ s : WindowState, s.original_data = some a0 →
      s.flip_horizontal = false → s.flip_vertical = false →
      s.engine.current_data ≠ none →
      (foldRotations rot s angles).original_data = some a0
      ∧ (foldRotations rot s angles).flip_horizontal = false
      ∧ (foldRotations rot s angles).flip_vertical = false
      ∧ (foldRotations rot s angles).engine.current_data ≠ none := by
  induction angles with
  | nil => exact fun s h1 h2 h3 h4 => ⟨h1, h2, h3, h4⟩
  | cons angle rest ih =>
    intro s h1 h2 h3 h4
    have hone : (rotate_image rot angle s).original_data = some a0
        ∧ (rotate_image rot angle s).flip_horizontal = false
        ∧ (rotate_image rot angle s).flip_vertical = false
        ∧ (rotate_image rot angle s).engine.current_data ≠ none := by
      unfold rotate_image
      rw [if_neg h4]
      have hparams := apply_transformations_params rot
        { s with rotation_angle := qmod360 angle }
      have hcap := apply_transformations_captured rot
        (s := { s with rotation_angle := qmod360 angle }) h1 h4
      refine ⟨hcap.1, ?_, ?_, ?_⟩
      · rw [hparams.2.1]
        exact h2
      · rw [hparams.2.2.1]
        exact h3
      · rw [hcap.2]
        exact Option.some_ne_none _
    exact ih (rotate_image rot angle s) hone.1 hone.2.1 hone.2.2.1 hone.2.2.2

/-- Claim C5: `rotate_image` stores `angle % 360`, replacing (not
composing with) any previous rotation; and after any sequence of
rotations, requesting rotation by 0 or by 360 degrees with both flips off
makes the engine hold the untransformed canonical array, so the displayed
array equals the channel reduction of the canonical array. -/
theorem rotate_image_spec (rot : NDArr → ℚ → NDArr) (st : WindowState)
    (a0 : NDArr) (horig : st.original_data = some a0)
    (hfh : st.flip_horizontal = false) (hfv : st.flip_vertical = false)
    (hcd : st.engine.current_data ≠ none) (angles : List ℚ) :
    (∀ angle : ℚ, (rotate_image rot angle st).rotation_angle = qmod360 angle)
    ∧ (rotate_image rot 0 (foldRotations rot st angles)).engine.current_data = some a0
    ∧ (rotate_image rot 360 (foldRotations rot st angles)).engine.current_data = some a0
    ∧ ((rotate_image rot 0 (foldRotations rot st angles)).engine.current_data.bind
        prepare_data_for_display = prepare_data_for_display a0)
    ∧ ((rotate_image rot 360 (foldRotations rot st angles)).engine.current_data.bind
        prepare_data_for_display = prepare_data_for_display a0) := by
  have hinv := rotate_fold_inv rot a0 angles st horig hfh hfv hcd
  have hfinal : ∀ angle : ℚ, qmod360 angle = 0 →
      (rotate_image rot angle (foldRotations rot st angles)).engine.current_data
        = some a0 := by
    intro angle hangle
    unfold rotate_image
    rw [if_neg hinv.2.2.2]
    have hcap := apply_transformations_captured rot
      (s := { foldRotations rot st angles with rotation_angle := qmod360 angle })
      hinv.1 hinv.2.2.2
    rw [hcap.2]
    show some (transformOf rot a0 (qmod360 angle)
      (foldRotations rot st angles).flip_horizontal
      (foldRotations rot st angles).flip_vertical) = some a0
    rw [hangle, hinv.2.1, hinv.2.2.1, transformOf_identity]
  have h0 := hfinal 0 qmod360_zero
  have h360 := hfinal 360 qmod360_360
  refine ⟨?_, h0, h360, ?_, ?_⟩
  · intro angle
    unfold rotate_image
    rw [if_neg hcd]
    exact (apply_transformations_params rot
      { st with rotation_angle := qmod360 angle }).1
  · rw [h0]
    rfl
  · rw [h360]
    rfl

/-- Claim C7: a transform update performed while both scaling bounds are
set leaves the engine bounds exactly as they were; only an explicit
auto-scale or manual bound edit changes them. -/
theorem apply_transformations_preserves_bounds (rot : NDArr → ℚ → NDArr)
    (st : WindowState) (v w : ℚ)
    (hv : st.engine.vmin = some v) (hw : st.engine.vmax = some w) :
    (apply_transformations rot st).engine.vmin = some v
    ∧ (apply_transformations rot st).engine.vmax = some w := by
  unfold apply_transformations
  split_ifs with h
  · exact ⟨hv, hw⟩
  · cases ho : st.original_data with
    | some d0 => exact applyCore_bounds rot d0 hv hw
    | none =>
      cases hf : st.fits_data with
      | none => exact ⟨hv, hw⟩
      | some d =>
        exact applyCore_bounds rot d hv hw

/-- Claim C8: an update with `vmin >= vmax` leaves the stored bounds (the
whole engine state) unchanged, and every bounds update preserves the
invariant that the stored bounds satisfy `vmin < vmax`. -/
theorem set_scaling_limits_spec (e : EngineState) (v w : ℚ) :
    (w ≤ v → set_scaling_limits e v w = e)
    ∧ ((∀ a b : ℚ, e.vmin = some a → e.vmax = some b → a < b) →
        ∀ a b : ℚ, (set_scaling_limits e v w).vmin = some a →
          (set_scaling_limits e v w).vmax = some b → a < b) := by
  constructor
  · intro h
    unfold set_scaling_limits
    rw [if_neg (not_lt.mpr h)]
  · intro hvalid a b ha hb
    unfold set_scaling_limits at ha hb
    split_ifs at ha hb with hlt
    · simp only [Option.some.injEq] at ha hb
      rw [← ha, ← hb]
      exact hlt
    · exact hvalid a b ha hb

/-- A small concrete array used by witnesses. -/
def sampleArr : NDArr :=
  { shape := [2, 2], dtype := DType.float64, data := [1, 2, 3, 4] }

/-- A concrete stand-in rotation function used by witnesses. -/
def rotId : NDArr → ℚ → NDArr := fun a _ => a

/-- A concrete engine state used by witnesses. -/
def sampleEngine : EngineState :=
  { current_data := some sampleArr, vmin := some 1, vmax := some 2,
    scaling_mode := "linear", colormap := "viridis" }

/-- A concrete window state used by witnesses. -/
def sampleWindow : WindowState :=
  { fits_data := some sampleArr, original_data := some sampleArr,
    rotation_angle := 0, flip_horizontal := false, flip_vertical := false,
    engine := sampleEngine }

theorem runOps_canonical_replay_witness :
    (runOps rotId sampleWindow [TOp.flipH, TOp.rotate 90]).original_data
      = some sampleArr := by
  exact (runOps_canonical_replay rotId sampleWindow sampleArr rfl (Or.inr rfl) rfl
    [TOp.flipH, TOp.rotate 90] (List.cons_ne_nil _ _)).1

theorem rotate_image_spec_witness :
    (rotate_image rotId 0 (foldRotations rotId sampleWindow [90, 45])).engine.current_data
      = some sampleArr := by
  exact (rotate_image_spec rotId sampleWindow sampleArr rfl rfl rfl
    (Option.some_ne_none _) [90, 45]).2.1

theorem apply_transformations_preserves_bounds_witness :
    (apply_transformations rotId sampleWindow).engine.vmin = some 1
    ∧ (apply_transformations rotId sampleWindow).engine.vmax = some 2 :=
  apply_transformations_preserves_bounds rotId sampleWindow 1 2 rfl rfl

theorem set_scaling_limits_spec_witness :
    set_scaling_limits sampleEngine 10 10 = sampleEngine :=
  (set_scaling_limits_spec sampleEngine 10 10).1 (by norm_num)

theorem ratTrunc_mem {lo hi : Int} {x : ℚ} (h1 : (lo : ℚ) ≤ x) (h2 : x ≤ (hi : ℚ)) :
    (lo : ℚ) ≤ ratTrunc x ∧ ratTrunc x ≤ (hi : ℚ) := by
  unfold ratTrunc
  split_ifs with hx
  · constructor
    · exact_mod_cast Int.le_floor.mpr h1
    · exact le_trans (Int.floor_le x) h2
  · constructor
    · exact le_trans h1 (Int.le_ceil x)
    · exact_mod_cast Int.ceil_le.mpr h2

theorem restoreDtype_spec {orig : DType} (hint : orig.isInt = true) (r : NDArr)
    (hr : r.valsOK) :
    (restoreDtype orig r).dtype = orig
    ∧ ∀ x ∈ (restoreDtype orig r).data,
        ((orig.tmin : ℚ)) ≤ x ∧ x ≤ ((orig.tmax : ℚ)) := by
  unfold restoreDtype
  split_ifs with hdt
  · refine ⟨hdt, ?_⟩
    intro x hx
    have := hr (by rw [hdt]; exact hint) x hx
    rwa [hdt] at this
  · refine ⟨rfl, ?_⟩
    intro x hx
    simp only [hint, if_true] at hx
    rw [List.map_map] at hx
    obtain ⟨y, _, rfl⟩ := List.mem_map.mp hx
    have hmm : (orig.tmin : ℚ) ≤ min (max y ((orig.tmin : Int) : ℚ)) ((orig.tmax : Int) : ℚ)
        ∧ min (max y ((orig.tmin : Int) : ℚ)) ((orig.tmax : Int) : ℚ) ≤ (orig.tmax : ℚ) := by
      constructor
      · apply le_min (le_max_right _ _)
        exact_mod_cast orig.tmin_le_tmax
      · exact min_le_right _ _
    show (orig.tmin : ℚ) ≤ astype orig (min (max y _) _) ∧ astype orig (min (max y _) _) ≤ _
    unfold astype
    rw [if_pos hint]
    exact ratTrunc_mem hmm.1 hmm.2

theorem ndRotate_valsOK {rot : NDArr → ℚ → NDArr}
    (hcons : ∀ b b2 : NDArr, ∀ t t2 : ℚ,
      b.dtype = b2.dtype → (rot b t).dtype = (rot b2 t2).dtype)
    (hwf : ∀ b t, (rot b t).valsOK) (a : NDArr) (angle : ℚ) :
    (ndRotate rot a angle).valsOK := by
  unfold ndRotate
  split_ifs with hrgb
  · intro hi x hx
    have hd1 : (rot (channel a 1) angle).dtype = (rot (channel a 0) angle).dtype :=
      hcons _ _ _ _ rfl
    have hd2 : (rot (channel a 2) angle).dtype = (rot (channel a 0) angle).dtype :=
      hcons _ _ _ _ rfl
    simp only [List.mem_append] at hx
    rcases hx with (hx | hx) | hx
    · exact hwf (channel a 0) angle hi x hx
    · have := hwf (channel a 1) angle (by rw [hd1]; exact hi) x hx
      rwa [hd1] at this
    · have := hwf (channel a 2) angle (by rw [hd2]; exact hi) x hx
      rwa [hd2] at this
  · exact hwf a angle

/-- Claim C6: for every canonical array of integer element type and every
rotation angle, the rotation step of `apply_transformations` yields an
array of the same integer dtype all of whose values lie in the
representable range `[typeMin, typeMax]` of that dtype; when the rotation
library returns a different (floating) dtype, the values are clipped to
the range and cast back.  `rot` abstracts `scipy.ndimage.rotate`; the
hypotheses state only its representation invariants: its output dtype
depends only on the input dtype, and whatever array it materializes
satisfies the integer-range invariant of its own dtype. -/
theorem rotateStep_int_range (rot : NDArr → ℚ → NDArr) (a : NDArr) (angle : ℚ)
    (hcons : ∀ b b2 : NDArr, ∀ t t2 : ℚ,
      b.dtype = b2.dtype → (rot b t).dtype = (rot b2 t2).dtype)
    (hwf : ∀ b t, (rot b t).valsOK)
    (hint : a.dtype.isInt = true) (ha : a.valsOK) :
    (rotateStep rot angle a).dtype = a.dtype
    ∧ ∀ x ∈ (rotateStep rot angle a).data,
        ((a.dtype.tmin : ℚ)) ≤ x ∧ x ≤ ((a.dtype.tmax : ℚ)) := by
  unfold rotateStep
  split_ifs with hang
  · exact restoreDtype_spec hint _ (ndRotate_valsOK hcons hwf a angle)
  · exact ⟨rfl, fun x hx => ha hint x hx⟩

/-- A concrete stand-in rotation that always produces a float64 array,
exercising the clip-and-cast branch. -/
def rotToFloat : NDArr → ℚ → NDArr := fun b _ =>
  { shape := b.shape, dtype := DType.float64, data := b.data.map (fun x => x + 1/2) }

/-- A concrete int8 array used by the C6 witness. -/
def sampleIntArr : NDArr := { shape := [2], dtype := DType.int8, data := [3, 100] }

theorem rotateStep_int_range_witness :
    (rotateStep rotToFloat 90 sampleIntArr).dtype = sampleIntArr.dtype
    ∧ ∀ x ∈ (rotateStep rotToFloat 90 sampleIntArr).data,
        ((sampleIntArr.dtype.tmin : ℚ)) ≤ x ∧ x ≤ ((sampleIntArr.dtype.tmax : ℚ)) := by
  apply rotateStep_int_range rotToFloat sampleIntArr 90
  · intro b b2 t t2 _
    rfl
  · intro b t hi
    simp [rotToFloat, DType.isInt] at hi
  · rfl
  · intro _ x hx
    simp only [sampleIntArr, List.mem_cons, List.not_mem_nil, or_false] at hx
    rcases hx with rfl | rfl <;> constructor <;>
      norm_num [sampleIntArr, DType.tmin, DType.tmax]

/-- One HDU of an open FITS file: its optional data array, its header
text, its astropy class name, and its `EXTNAME`. -/
structure HDU where
  data : Option NDArr
  header : String
  htype : String
  extname : String
deriving DecidableEq

/-- The dict built by `FITSFileManager.get_hdu_info`. -/
structure HduInfo where
  index : Int
  htype : String
  dimensions : Option (List Nat)
  dtypeName : Option String
  has_data : Bool
  extname : String
deriving DecidableEq

/-- The state of `FITSFileManager` (`src/fits_file_manager.py`): the open
HDU list (or `none`), the file path, and the cached HDU count. -/
structure FITSFileManager where
  hdulist : Option (List HDU)
  filepath : Option String
  num_hdus : Int
deriving DecidableEq

/-- Embedding of `FITSFileManager.get_data`
(`src/fits_file_manager.py:130`): `none` when no file is open or the
index is out of range; otherwise the indexed HDU's data. -/
def get_data (m : FITSFileManager) (index : Int) : Option NDArr :=
  if m.hdulist = none ∨ index < 0 ∨ m.num_hdus ≤ index then none
  else
    match m.hdulist with
    | none => none
    | some l =>
        match l.get? index.toNat with
        | none => none
        | some h => h.data

/-- Embedding of `FITSFileManager.get_hdu_info`
(`src/fits_file_manager.py:90`): `none` models the empty dict returned
when no file is open or the index is out of range. -/
def get_hdu_info (m : FITSFileManager) (index : Int) : Option HduInfo :=
  if m.hdulist = none ∨ index < 0 ∨ m.num_hdus ≤ index then none
  else
    match m.hdulist with
    | none => none
    | some l =>
        match l.get? index.toNat with
        | none => none
        | some h =>
            some { index := index, htype := h.htype,
                   dimensions := h.data.map NDArr.shape,
                   dtypeName := h.data.map (fun a => a.dtype.name),
                   has_data := h.data.isSome, extname := h.extname }

/-- Embedding of `FITSFileManager.get_header`
(`src/fits_file_manager.py:114`): the empty string when no file is open
or the index is out of range; otherwise the HDU's header text. -/
def get_header (m : FITSFileManager) (index : Int) : String :=
  if m.hdulist = none ∨ index < 0 ∨ m.num_hdus ≤ index then ""
  else
    match m.hdulist with
    | none => ""
    | some l =>
        match l.get? index.toNat with
        | none => ""
        | some h => h.header

/-- Claim C10: the three accessors are total on out-of-range input: for
every manager state, whenever no file is open or the index is negative or
at least `num_hdus`, `get_data` returns `none`, `get_hdu_info` returns
the empty dict, and `get_header` returns the empty string; moreover, when
a file is open with a consistent HDU count and the index passes the
guard, the guarded list access always succeeds, so none of the accessors
can raise. -/
theorem accessors_total (m : FITSFileManager) (index : Int) :
    ((m.hdulist = none ∨ index < 0 ∨ m.num_hdus ≤ index) →
      get_data m index = none ∧ get_hdu_info m index = none
        ∧ get_header m index = "")
    ∧ (∀ l, m.hdulist = some l → m.num_hdus = l.length →
        ¬ (index < 0 ∨ m.num_hdus ≤ index) →
        ∃ h, l.get? index.toNat = some h ∧ get_data m index = h.data
          ∧ get_header m index = h.header) := by
  constructor
  · intro hcond
    unfold get_data get_hdu_info get_header
    rw [if_pos hcond, if_pos hcond, if_pos hcond]
    exact ⟨rfl, rfl, rfl⟩
  · intro l hl hn hrange
    push_neg at hrange
    have hlt : index.toNat < l.length := by
      omega
    have hh : l.get? index.toNat = some (l.get ⟨index.toNat, hlt⟩) :=
      List.get?_eq_get hlt
    have hcond : ¬ (m.hdulist = none ∨ index < 0 ∨ m.num_hdus ≤ index) := by
      push_neg
      refine ⟨?_, hrange.1, hrange.2⟩
      rw [hl]
      exact Option.some_ne_none _
    refine ⟨l.get ⟨index.toNat, hlt⟩, hh, ?_, ?_⟩
    · unfold get_data
      rw [if_neg hcond]
      simp only [hl, hh]
    · unfold get_header
      rw [if_neg hcond]
      simp only [hl, hh]

/-- A concrete closed manager state used by the C10 witness. -/
def emptyManager : FITSFileManager :=
  { hdulist := none, filepath := none, num_hdus := 0 }

theorem accessors_total_witness :
    get_data emptyManager (-1) = none ∧ get_hdu_info emptyManager (-1) = none
      ∧ get_header emptyManager (-1) = "" :=
  (accessors_total emptyManager (-1)).1 (Or.inl rfl)

theorem range_map_getD (f : Nat → ℚ) (n k : Nat) (hk : k < n) :
    ((List.range n).map f).getD k 0 = f k := by
  rw [List.getD_eq_getElem?_getD, List.getElem?_map, List.getElem?_range hk]
  rfl

theorem idx_lt {i j h w : Nat} (hi : i < h) (hj : j < w) : i * w + j < h * w := by
  calc i * w + j < i * w + w := by omega
  _ = (i + 1) * w := by ring
  _ ≤ h * w := Nat.mul_le_mul_right w hi

theorem transposeRGB_spec {a : NDArr} {h w : Nat} (hshape : a.shape = [3, h, w]) :
    (transposeRGB a).shape = [h, w, 3]
    ∧ (transposeRGB a).dtype = a.dtype
    ∧ ∀ i j c : Nat, i < h → j < w → c < 3 →
        (transposeRGB a).item ((i * w + j) * 3 + c)
          = a.item (c * (h * w) + (i * w + j)) := by
  have hh : a.shape.getD 1 0 = h := by rw [hshape]; rfl
  have hw : a.shape.getD 2 0 = w := by rw [hshape]; rfl
  refine ⟨?_, rfl, ?_⟩
  · unfold transposeRGB
    simp only [hh, hw]
  · intro i j c hi hj hc
    have hm : i * w + j < h * w := idx_lt hi hj
    have hk : (i * w + j) * 3 + c < h * w * 3 := by omega
    show ((List.range (a.shape.getD 1 0 * a.shape.getD 2 0 * 3)).map
        (fun k => a.item ((k % 3) * (a.shape.getD 1 0 * a.shape.getD 2 0)
          + (k / 3 / a.shape.getD 2 0) * a.shape.getD 2 0
          + k / 3 % a.shape.getD 2 0))).getD ((i * w + j) * 3 + c) 0
      = a.item (c * (h * w) + (i * w + j))
    rw [hh, hw, range_map_getD _ _ _ hk]
    have hwpos : 0 < w := by omega
    have e1 : ((i * w + j) * 3 + c) % 3 = c := by omega
    have e2 : ((i * w + j) * 3 + c) / 3 = i * w + j := by omega
    have e3 : (i * w + j) / w = i := by
      rw [Nat.add_comm, Nat.add_mul_div_right _ _ hwpos, Nat.div_eq_of_lt hj]
      omega
    have e4 : (i * w + j) % w = j := by
      have hcomm : i * w + j = w * i + j := by ring
      rw [hcomm, Nat.mul_add_mod, Nat.mod_eq_of_lt hj]
    rw [e1, e2, e3, e4]
    congr 1
    ring

theorem sliceMiddleFirst_spec {a : NDArr} {d0 : Nat} {rest : List Nat}
    (hshape : a.shape = d0 :: rest) :
    (sliceMiddleFirst a).shape = rest
    ∧ (sliceMiddleFirst a).dtype = a.dtype
    ∧ ∀ k, k < rest.prod →
        (sliceMiddleFirst a).item k = a.item (d0 / 2 * rest.prod + k) := by
  unfold sliceMiddleFirst
  simp only [hshape]
  refine ⟨by simp, by simp, ?_⟩
  intro k hk
  show ((List.range rest.prod).map
      (fun k => a.item (d0 / 2 * rest.prod + k))).getD k 0
    = a.item (d0 / 2 * rest.prod + k)
  rw [range_map_getD _ _ _ hk]

theorem leadOffset_cons {d0 : Nat} {rest : List Nat} (h : 2 ≤ rest.length) :
    leadOffset (d0 :: rest) = d0 / 2 * rest.prod + leadOffset rest := by
  cases rest with
  | nil => simp at h
  | cons d1 r1 =>
    cases r1 with
    | nil => simp at h
    | cons d2 r2 => rfl

theorem leadOffset_bound : ∀ (s : List Nat), 2 ≤ s.length → (∀ d ∈ s, 0 < d) →
    leadOffset s + (s.drop (s.length - 2)).prod ≤ s.prod := by
  intro s
  induction s with
  | nil =>
    intro h
    simp at h
  | cons d0 rest ih =>
    intro hlen hpos
    by_cases h2 : rest.length ≤ 1
    · have hdrop0 : (d0 :: rest).length - 2 = 0 := by
        simp only [List.length_cons]
        omega
      rw [hdrop0, List.drop_zero]
      have hlo : leadOffset (d0 :: rest) = 0 := by
        cases rest with
        | nil => simp at hlen
        | cons d1 r1 =>
          cases r1 with
          | nil => rfl
          | cons d2 r2 => simp at h2
      rw [hlo, Nat.zero_add]
    · push_neg at h2
      rw [leadOffset_cons (by omega)]
      have hih := ih (by omega) (fun d hd => hpos d (List.mem_cons_of_mem _ hd))
      have hdrop : (d0 :: rest).drop ((d0 :: rest).length - 2)
          = rest.drop (rest.length - 2) := by
        have he : (d0 :: rest).length - 2 = (rest.length - 2) + 1 := by
          simp only [List.length_cons]
          omega
        rw [he, List.drop_succ_cons]
      rw [hdrop]
      have hd0 : 1 ≤ d0 := hpos d0 (List.mem_cons_self _ _)
      have hstep : d0 / 2 * rest.prod + rest.prod ≤ d0 * rest.prod := by
        have h1 : d0 / 2 + 1 ≤ d0 := by omega
        calc d0 / 2 * rest.prod + rest.prod = (d0 / 2 + 1) * rest.prod := by ring
        _ ≤ d0 * rest.prod := Nat.mul_le_mul_right _ h1
      calc d0 / 2 * rest.prod + leadOffset rest + (rest.drop (rest.length - 2)).prod
          = d0 / 2 * rest.prod + (leadOffset rest + (rest.drop (rest.length - 2)).prod) := by
            ring
      _ ≤ d0 / 2 * rest.prod + rest.prod := Nat.add_le_add_left hih _
      _ ≤ d0 * rest.prod := hstep
      _ = (d0 :: rest).prod := by rw [List.prod_cons]

theorem iterate_slice_spec : ∀ (n : Nat) (a : NDArr), a.ndim = n + 2 →
    (∀ d ∈ a.shape, 0 < d) →
    (sliceMiddleFirst^[n] a).shape = a.shape.drop n
    ∧ (sliceMiddleFirst^[n] a).dtype = a.dtype
    ∧ ∀ k, k < (a.shape.drop n).prod →
        (sliceMiddleFirst^[n] a).item k = a.item (leadOffset a.shape + k) := by
  intro n
  induction n with
  | zero =>
    intro a hnd hpos
    obtain ⟨d0, d1, hshape⟩ : ∃ d0 d1, a.shape = [d0, d1] := by
      have hlen : a.shape.length = 2 := by
        rw [NDArr.ndim] at hnd
        omega
      exact List.length_eq_two.mp hlen
    have hlo : leadOffset a.shape = 0 := by rw [hshape]; rfl
    refine ⟨by simp, by simp, ?_⟩
    intro k hk
    rw [Function.iterate_zero_apply, hlo, Nat.zero_add]
  | succ m ih =>
    intro a hnd hpos
    obtain ⟨d0, rest, hshape⟩ : ∃ d0 rest, a.shape = d0 :: rest := by
      apply List.exists_cons_of_ne_nil
      intro hnil
      rw [NDArr.ndim, hnil] at hnd
      simp at hnd
    have hrl : rest.length = m + 2 := by
      rw [NDArr.ndim, hshape] at hnd
      simpa using hnd
    have hslice := sliceMiddleFirst_spec (a := a) hshape
    have hnd2 : (sliceMiddleFirst a).ndim = m + 2 := by
      rw [NDArr.ndim, hslice.1, hrl]
    have hpos2 : ∀ d ∈ (sliceMiddleFirst a).shape, 0 < d := by
      rw [hslice.1]
      intro d hd
      exact hpos d (by rw [hshape]; exact List.mem_cons_of_mem _ hd)
    have hih := ih (sliceMiddleFirst a) hnd2 hpos2
    have hdrop : a.shape.drop (m + 1) = rest.drop m := by
      rw [hshape, List.drop_succ_cons]
    refine ⟨?_, ?_, ?_⟩
    · rw [Function.iterate_succ_apply, hih.1, hslice.1, hdrop]
    · rw [Function.iterate_succ_apply, hih.2.1, hslice.2.1]
    · intro k hk
      rw [hdrop] at hk
      have hk2 : k < ((sliceMiddleFirst a).shape.drop m).prod := by
        rw [hslice.1]
        exact hk
      rw [Function.iterate_succ_apply, hih.2.2 k hk2]
      have hlead : leadOffset (sliceMiddleFirst a).shape = leadOffset rest := by
        rw [hslice.1]
      rw [hlead]
      have hposrest : ∀ d ∈ rest, 0 < d :=
        fun d hd => hpos d (by rw [hshape]; exact List.mem_cons_of_mem _ hd)
      have hbound := leadOffset_bound rest (by omega) hposrest
      have hm2 : rest.length - 2 = m := by omega
      rw [hm2] at hbound
      have hoff : leadOffset rest + k < rest.prod := by
        have := Nat.add_lt_add_left hk (leadOffset rest)
        omega
      rw [hslice.2.2 _ hoff, hshape, leadOffset_cons (by omega)]
      congr 1
      ring

/-- Claim C4: the channel reduction is a deterministic function of rank
and shape: rank 1 yields `none` (not displayable); rank 2 is returned
unchanged; rank 3 with leading dimension 3 is transposed to channel-last
`(h, w, 3)`; rank 3 otherwise selects the slice at index `⌊size/2⌋` of
the first axis; rank above 3 selects index `⌊size/2⌋` along every leading
axis beyond the last two, collapsing to a 2D slice (stated elementwise in
flat C order, with positive dimensions for the multi-axis case). -/
theorem prepare_data_for_display_spec (a : NDArr) :
    (a.ndim = 1 → prepare_data_for_display a = none)
    ∧ (a.ndim = 2 → prepare_data_for_display a = some a)
    ∧ (∀ h w : Nat, a.shape = [3, h, w] →
        ∃ b, prepare_data_for_display a = some b ∧ b.shape = [h, w, 3]
          ∧ b.dtype = a.dtype
          ∧ ∀ i j c : Nat, i < h → j < w → c < 3 →
              b.item ((i * w + j) * 3 + c) = a.item (c * (h * w) + (i * w + j)))
    ∧ (∀ d0 h w : Nat, a.shape = [d0, h, w] → d0 ≠ 3 →
        ∃ b, prepare_data_for_display a = some b ∧ b.shape = [h, w]
          ∧ b.dtype = a.dtype
          ∧ ∀ k, k < h * w → b.item k = a.item (d0 / 2 * (h * w) + k))
    ∧ (4 ≤ a.ndim → (∀ d ∈ a.shape, 0 < d) →
        ∃ b, prepare_data_for_display a = some b
          ∧ b.shape = a.shape.drop (a.ndim - 2) ∧ b.dtype = a.dtype
          ∧ ∀ k, k < (a.shape.drop (a.ndim - 2)).prod →
              b.item k = a.item (leadOffset a.shape + k)) := by
  refine ⟨?_, ?_, ?_, ?_, ?_⟩
  · intro h1
    unfold prepare_data_for_display
    rw [if_pos h1]
  · intro h2
    unfold prepare_data_for_display
    rw [if_neg (by omega), if_pos h2]
  · intro h w hshape
    have hnd : a.ndim = 3 := by rw [NDArr.ndim, hshape]; rfl
    have hhead : a.shape.headD 0 = 3 := by rw [hshape]; rfl
    refine ⟨transposeRGB a, ?_, (transposeRGB_spec hshape).1,
      (transposeRGB_spec hshape).2.1, (transposeRGB_spec hshape).2.2⟩
    unfold prepare_data_for_display
    rw [if_neg (by omega), if_neg (by omega), if_pos hnd, if_pos hhead]
  · intro d0 h w hshape hd0
    have hnd : a.ndim = 3 := by rw [NDArr.ndim, hshape]; rfl
    have hhead : ¬ a.shape.headD 0 = 3 := by rw [hshape]; simpa using hd0
    have hslice := sliceMiddleFirst_spec hshape
    have hprod : ([h, w] : List Nat).prod = h * w := by simp
    refine ⟨sliceMiddleFirst a, ?_, hslice.1, hslice.2.1, ?_⟩
    · unfold prepare_data_for_display
      rw [if_neg (by omega), if_neg (by omega), if_pos hnd, if_neg hhead]
    · intro k hk
      have := hslice.2.2 k (by rw [hprod]; exact hk)
      rwa [hprod] at this
  · intro h4 hpos
    have hit := iterate_slice_spec (a.ndim - 2) a (by omega) hpos
    refine ⟨reduceLead a, ?_, hit.1, hit.2.1, hit.2.2⟩
    unfold prepare_data_for_display
    rw [if_neg (by omega), if_neg (by omega), if_neg (by omega)]

theorem prepare_data_for_display_spec_witness :
    ∃ b, prepare_data_for_display
        { shape := [4, 2, 2], dtype := DType.float64,
          data := [0, 1, 2, 3, 4, 5, 6, 7, 8, 9, 10, 11, 12, 13, 14, 15] } = some b
      ∧ b.shape = [2, 2]
      ∧ b.dtype = DType.float64
      ∧ ∀ k, k < 2 * 2 →
          b.item k = NDArr.item
            { shape := [4, 2, 2], dtype := DType.float64,
              data := [0, 1, 2, 3, 4, 5, 6, 7, 8, 9, 10, 11, 12, 13, 14, 15] }
            (4 / 2 * (2 * 2) + k) := by
  exact (prepare_data_for_display_spec _).2.2.2.1 4 2 2 rfl (by omega)

end FitsView
